import Mathlib

/-!
Verification development for the YARA disk-scan engine
(`src/YaraDiskScan/script.py`).

The Python source is shallowly embedded: pure helper functions become Lean
functions over `Nat`, `String`, `List`, and `Rat` (Python floats are
abstracted as rationals); the chunked JSONL writer and the per-file scan
loop become explicit state passing; fallible filesystem operations return
`Option` (with `none` standing for a raised `FilesystemError`).  The
behaviour of external collaborators (pathlib/dissect path objects, the
YARA engine, CPython's `float()` conversion) is supplied as oracle data in
the input structures, exactly where the source consumes their results.

String operations are re-implemented structurally over `List Char`
(Python's `str.lower`, `str.strip`, `str.split(",")` on the ASCII inputs
handled here) so that every definition evaluates inside the kernel.
-/

namespace YaraDiskScan

/-- Characters of a string, lower-cased; models Python `str.lower()` on the
ASCII-dominated names the script handles. -/
def pyLower (s : String) : String := String.mk (s.toList.map Char.toLower)

/-- Models Python `str.strip()`: drop leading and trailing whitespace. -/
def pyStrip (s : String) : String :=
  String.mk (((s.toList.dropWhile Char.isWhitespace).reverse.dropWhile
    Char.isWhitespace).reverse)

/-- Helper for `splitComma`: accumulates the current field (reversed). -/
def splitCommaAux : List Char → List Char → List String
  | [], acc => [String.mk acc.reverse]
  | c :: cs, acc =>
    if c = ',' then String.mk acc.reverse :: splitCommaAux cs []
    else splitCommaAux cs (c :: acc)

/-- Models Python `value.split(",")`. -/
def splitComma (s : String) : List String := splitCommaAux s.toList []

/-- True when the string starts with a dot (`ext.startswith(".")`). -/
def startsWithDot (s : String) : Bool :=
  match s.toList with
  | '.' :: _ => true
  | _ => false

/-- `DEFAULT_EXTENSIONS` from the source. -/
def DEFAULT_EXTENSIONS : List String :=
  [".exe", ".dll", ".sys", ".scr", ".ocx", ".drv", ".com", ".cpl", ".bin", ".dat"]

/-- `DEFAULT_EXCLUDES` from the source. -/
def DEFAULT_EXCLUDES : List String :=
  ["system volume information", "$recycle.bin", "windows.old", "winsxs"]

/-- `SEVERITY_KEYS` from the source (a tuple there; order preserved). -/
def SEVERITY_KEYS : List String :=
  ["severity", "confidence", "score", "level", "weight"]

/-- `ScanConfig` dataclass.  Sizes and caps are naturals; severities are
rationals (Python floats abstracted); `include_extensions = none` is the
wildcard policy, mirroring the Python `Optional[Set[str]]`. -/
structure ScanConfig where
  include_extensions : Option (List String)
  exclude_dirs : List String
  max_file_size : Nat
  max_matches_per_file : Nat
  max_strings : Nat
  string_sample_bytes : Nat
  min_severity : Option Rat
  require_severity : Bool
  yara_timeout : Nat
deriving DecidableEq

/-- `parse_extensions` from the source: a missing or empty option yields the
default allow-set; a CSV whose normalized fields are empty or contain `*`
yields `none` (wildcard); otherwise the trimmed, lower-cased fields get a
leading dot where missing. -/
def parse_extensions (value : Option String) : Option (List String) :=
  match value with
  | none => some DEFAULT_EXTENSIONS
  | some v =>
    if v = "" then some DEFAULT_EXTENSIONS
    else
      let normalized := (splitComma v).filterMap fun s =>
        let t := pyStrip s
        if t = "" then none else some (pyLower t)
      if normalized = [] ∨ "*" ∈ normalized then none
      else some (normalized.map fun e => if startsWithDot e then e else "." ++ e)

/-- `parse_excludes` from the source. -/
def parse_excludes (value : Option String) : List String :=
  match value with
  | none => DEFAULT_EXCLUDES
  | some v =>
    if v = "" then DEFAULT_EXCLUDES
    else (splitComma v).filterMap fun s =>
      let t := pyStrip s
      if t = "" then none else some (pyLower t)

/-- Classification of a directory entry by the evidence filesystem. -/
inductive EntryKind where
  | dir
  | file
  | other
deriving DecidableEq

/-- A path handed out by the evidence filesystem (dissect `TargetPath`).
`parts` are the path segments as Python `path.parts` yields them (anchor
first, file name last); `suffix` is `path.suffix` as computed by pathlib;
`kind` is the result of `is_dir()`/`is_file()` (`none` when those raise
`FilesystemError`); `statr` is the result of `safe_stat`: `some size`
carrying `st_size`, or `none` when `stat()` raised. -/
structure Entry where
  parts : List String
  suffix : String
  kind : Option EntryKind
  statr : Option Nat
deriving DecidableEq

/-- Extension test of `should_scan_file`: `true` unless an allow-set is
configured and the lower-cased suffix is not in it. -/
def extAllowed (cfg : ScanConfig) (e : Entry) : Bool :=
  match cfg.include_extensions with
  | none => true
  | some exts => decide (pyLower e.suffix ∈ exts)

/-- Path-segment test of `should_scan_file`: `parts_lower & exclude_dirs`
is nonempty. -/
def partsDenied (cfg : ScanConfig) (e : Entry) : Bool :=
  decide (∃ p ∈ e.parts, pyLower p ∈ cfg.exclude_dirs)

/-- `should_scan_file` from the source: `none` when the stat failed, the
size is zero or above the cap, the extension is not allowed, or some path
segment is deny-listed; otherwise the stat result (its size). -/
def should_scan_file (e : Entry) (cfg : ScanConfig) : Option Nat :=
  match e.statr with
  | none => none
  | some size =>
    if size = 0 ∨ cfg.max_file_size < size then none
    else if extAllowed cfg e = false then none
    else if partsDenied cfg e = true then none
    else some size

/-- Configuration produced by `load_scan_config` when every optional
environment variable is absent (50 MB cap, defaults 5/3/96, no severity
thresholds, 30 s timeout). -/
def defaultConfig : ScanConfig :=
  { include_extensions := parse_extensions none
    exclude_dirs := parse_excludes none
    max_file_size := 52428800
    max_matches_per_file := 5
    max_strings := 3
    string_sample_bytes := 96
    min_severity := none
    require_severity := false
    yara_timeout := 30 }

/-- Claim C1, counterexample: with an absent allow-list option the parser
returns the built-in default set, not the wildcard, and the qualifier then
rejects `a.txt` (while admitting `a.exe`), contradicting the claim that an
absent allow-list admits files of any extension. -/
theorem c1_absent_not_wildcard :
    parse_extensions none = some DEFAULT_EXTENSIONS ∧
    should_scan_file ⟨["/", "a.txt"], ".txt", some .file, some 10⟩ defaultConfig = none ∧
    should_scan_file ⟨["/", "a.exe"], ".exe", some .file, some 10⟩ defaultConfig = some 10 := by
  decide

/-- Claim C1, amended: an absent or empty allow-list option yields the
default allow-set; an explicit `*` entry yields the wildcard policy, under
which the qualifier admits a file of any extension, subject only to the
size bounds and the deny-set. -/
theorem c1_wildcard_admits_any_extension (cfg : ScanConfig) (e : Entry) (size : Nat)
    (hwild : cfg.include_extensions = none)
    (hstat : e.statr = some size)
    (hpos : 0 < size)
    (hmax : size ≤ cfg.max_file_size)
    (hparts : ∀ p ∈ e.parts, pyLower p ∉ cfg.exclude_dirs) :
    should_scan_file e cfg = some size ∧
    parse_extensions none = some DEFAULT_EXTENSIONS ∧
    parse_extensions (some "*") = none := by
  refine ⟨?_, by decide, by decide⟩
  have hext : extAllowed cfg e = true := by
    unfold extAllowed
    rw [hwild]
  have hdeny : partsDenied cfg e = false := by
    unfold partsDenied
    simp only [decide_eq_false_iff_not]
    rintro ⟨p, hp, hmem⟩
    exact hparts p hp hmem
  unfold should_scan_file
  rw [hstat]
  simp only [hext, hdeny]
  rw [if_neg (by omega)]
  simp

/-- Claim C1, witness: concrete wildcard configuration admitting `a.txt`. -/
theorem c1_wildcard_admits_any_extension_witness :
    should_scan_file ⟨["/", "a.txt"], ".txt", some .file, some 10⟩
      { defaultConfig with include_extensions := parse_extensions (some "*") } = some 10 := by
  have h := c1_wildcard_admits_any_extension
    { defaultConfig with include_extensions := parse_extensions (some "*") }
    ⟨["/", "a.txt"], ".txt", some .file, some 10⟩ 10
    (by decide) (by decide) (by decide) (by decide) (by decide)
  exact h.1

/-- A scalar metadata value as the YARA engine hands it to the script.
`float(value)` conversion behaviour of the external runtime is carried by
the constructor: `num` (an int/float, converting to itself), `boolean`
(converting to 0 or 1), `strNum` (a string the runtime parses as the given
number), `strBad` (a string raising `ValueError`), `noneV` (`None`,
raising `TypeError`). -/
inductive PyVal where
  | num (q : Rat)
  | boolean (b : Bool)
  | strNum (q : Rat)
  | strBad (s : String)
  | noneV
deriving DecidableEq

/-- Result of Python `float(value)` on a metadata scalar: `none` when the
conversion raises `TypeError` or `ValueError`. -/
def pyFloat : PyVal → Option Rat
  | .num q => some q
  | .boolean b => some (if b then 1 else 0)
  | .strNum q => some q
  | .strBad _ => none
  | .noneV => none

/-- `extract_severity` from the source: walk the metadata items in mapping
order; on an item whose lower-cased key is one of `SEVERITY_KEYS`, return
`float(value)` if it converts, otherwise keep scanning; `none` at the
end. -/
def extract_severity : List (String × PyVal) → Option Rat
  | [] => none
  | (k, v) :: rest =>
    if pyLower k ∈ SEVERITY_KEYS then
      match pyFloat v with
      | some q => some q
      | none => extract_severity rest
    else extract_severity rest

/-- Severity of a metadata mapping as the specification words it: the first
key present (in mapping order) whose lower-cased name is in the fixed
candidate set and whose value converts to a number; absent otherwise. -/
def severitySpec (meta : List (String × PyVal)) : Option Rat :=
  meta.findSome? fun kv =>
    if pyLower kv.1 ∈ SEVERITY_KEYS then pyFloat kv.2 else none

/-- Claim C4: `extract_severity` returns exactly the value of the first
metadata key (scanned case-insensitively, in mapping order) from the fixed
candidate set {severity, confidence, score, level, weight} whose value
converts to a number, and is absent when no such key exists. -/
theorem c4_extract_severity_first_convertible (meta : List (String × PyVal)) :
    extract_severity meta = severitySpec meta := by
  induction meta with
  | nil => rfl
  | cons kv rest ih =>
    obtain ⟨k, v⟩ := kv
    unfold extract_severity severitySpec
    by_cases hk : pyLower k ∈ SEVERITY_KEYS
    · rw [if_pos hk]
      cases hv : pyFloat v with
      | none =>
        simp only [List.findSome?_cons, hv, if_pos hk]
        exact ih
      | some q => simp [List.findSome?_cons, hv, if_pos hk]
    · rw [if_neg hk]
      simp only [List.findSome?_cons, if_neg hk]
      exact ih

/-- A raw match as returned by the matching engine: rule identifier,
namespace, tags, metadata mapping, and the ordered string occurrences
`(offset, identifier, data)`, where `data` is either raw bytes (modelled
as a list of byte values) or an already-decoded string. -/
inductive StrData where
  | bytes (bs : List Nat)
  | strv (s : String)
deriving DecidableEq

structure RawMatch where
  rule : String
  nspace : String
  tags : List String
  meta : List (String × PyVal)
  strings : List (Nat × String × StrData)
deriving DecidableEq

/-- The two `continue` conditions of the post-processing loop in
`scan_file`: a match is dropped when `require_severity` is set and no
severity was extracted, or when a severity was extracted and falls below a
configured `min_severity`. -/
def dropMatch (cfg : ScanConfig) (m : RawMatch) : Bool :=
  let severity := extract_severity m.meta
  if cfg.require_severity ∧ severity = none then true
  else
    match severity, cfg.min_severity with
    | some s, some t => decide (s < t)
    | _, _ => false

/-- Claim C7: a raw match is dropped exactly when `require_severity` is set
and its extracted severity is absent, or its severity is present and
strictly below a configured `min_severity`; in particular severity 3 is
dropped under `min_severity = 5`, kept under `min_severity = 2`, and a
match without any recognized severity key is dropped once
`require_severity` is set. -/
theorem c7_severity_policy (cfg : ScanConfig) (m : RawMatch) :
    (dropMatch cfg m = true ↔
      (cfg.require_severity = true ∧ extract_severity m.meta = none) ∨
      (∃ s t, extract_severity m.meta = some s ∧ cfg.min_severity = some t ∧ s < t)) ∧
    dropMatch { defaultConfig with min_severity := some 5 }
      { rule := "r", nspace := "n", tags := [], meta := [("severity", .num 3)], strings := [] } = true ∧
    dropMatch { defaultConfig with min_severity := some 2 }
      { rule := "r", nspace := "n", tags := [], meta := [("severity", .num 3)], strings := [] } = false ∧
    dropMatch { defaultConfig with require_severity := true }
      { rule := "r", nspace := "n", tags := [], meta := [("author", .strBad "x")], strings := [] } = true := by
  refine ⟨?_, by decide, by decide, by decide⟩
  unfold dropMatch
  cases hsev : extract_severity m.meta with
  | none =>
    by_cases hreq : cfg.require_severity = true
    · simp [hreq, hsev]
    · simp only [Bool.not_eq_true] at hreq
      simp [hreq, hsev]
  | some s =>
    cases hmin : cfg.min_severity with
    | none => simp [hsev, hmin]
    | some t =>
      by_cases hlt : s < t
      · simp [hsev, hmin, hlt]
      · simp [hsev, hmin, hlt]

/-- The standard base64 alphabet used by `base64.b64encode`. -/
def b64Alphabet : List Char :=
  "ABCDEFGHIJKLMNOPQRSTUVWXYZabcdefghijklmnopqrstuvwxyz0123456789+/".toList

/-- Character for a six-bit group. -/
def sextetChar (n : Nat) : Char := b64Alphabet.getD n 'A'

/-- Six-bit group for an alphabet character. -/
def charSextet (c : Char) : Nat := b64Alphabet.indexOf c

/-- Standard base64 of a byte list (models `base64.b64encode`): bytes are
packed three at a time into four sextet characters, with `=` padding for a
short final chunk. -/
def b64encode : List Nat → List Char
  | [] => []
  | [b0] => [sextetChar (b0 / 4), sextetChar (b0 % 4 * 16), '=', '=']
  | [b0, b1] =>
    [sextetChar (b0 / 4), sextetChar (b0 % 4 * 16 + b1 / 16),
     sextetChar (b1 % 16 * 4), '=']
  | b0 :: b1 :: b2 :: rest =>
    sextetChar (b0 / 4) :: sextetChar (b0 % 4 * 16 + b1 / 16) ::
    sextetChar (b1 % 16 * 4 + b2 / 64) :: sextetChar (b2 % 64) :: b64encode rest

/-- First byte of a decoded four-character group. -/
def b64byte0 (a b : Char) : Nat := charSextet a * 4 + charSextet b / 16

/-- Second byte of a decoded four-character group. -/
def b64byte1 (b c : Char) : Nat := charSextet b % 16 * 16 + charSextet c / 4

/-- Third byte of a decoded four-character group. -/
def b64byte2 (c d : Char) : Nat := charSextet c % 4 * 64 + charSextet d

/-- Base64 decoding of well-formed input: groups of four characters, the
last group possibly `=`-padded. -/
def b64decode : List Char → List Nat
  | a :: b :: c :: d :: rest =>
    if rest = [] then
      if c = '=' then [b64byte0 a b]
      else if d = '=' then [b64byte0 a b, b64byte1 b c]
      else [b64byte0 a b, b64byte1 b c, b64byte2 c d]
    else b64byte0 a b :: b64byte1 b c :: b64byte2 c d :: b64decode rest
  | _ => []

theorem charSextet_sextetChar {n : Nat} (h : n < 64) : charSextet (sextetChar n) = n := by
  revert h
  revert n
  decide

theorem sextetChar_ne_pad (n : Nat) : sextetChar n ≠ '=' := by
  by_cases h : n < 64
  · revert h
    revert n
    decide
  · have hlen : b64Alphabet.length = 64 := by decide
    unfold sextetChar
    rw [List.getD_eq_default]
    · decide
    · omega

theorem sextetChar_ascii (n : Nat) : (sextetChar n).toNat < 128 := by
  by_cases h : n < 64
  · revert h
    revert n
    decide
  · have hlen : b64Alphabet.length = 64 := by decide
    unfold sextetChar
    rw [List.getD_eq_default]
    · decide
    · omega

theorem b64encode_ne_nil {bs : List Nat} (h : bs ≠ []) : b64encode bs ≠ [] := by
  match bs with
  | [] => exact absurd rfl h
  | [b0] => simp [b64encode]
  | [b0, b1] => simp [b64encode]
  | b0 :: b1 :: b2 :: rest => simp [b64encode]

/-- Base64 decoding inverts encoding on byte lists. -/
theorem b64decode_b64encode (bs : List Nat) (h : ∀ b ∈ bs, b < 256) :
    b64decode (b64encode bs) = bs := by
  induction bs using b64encode.induct with
  | case1 => rfl
  | case2 b0 =>
    have hb0 : b0 < 256 := h b0 (by simp)
    show b64decode [sextetChar (b0 / 4), sextetChar (b0 % 4 * 16), '=', '='] = [b0]
    unfold b64decode
    rw [if_pos rfl, if_pos rfl]
    unfold b64byte0
    rw [charSextet_sextetChar (by omega), charSextet_sextetChar (by omega)]
    simp only [List.cons.injEq, and_true]
    omega
  | case3 b0 b1 =>
    have hb0 : b0 < 256 := h b0 (by simp)
    have hb1 : b1 < 256 := h b1 (by simp)
    show b64decode [sextetChar (b0 / 4), sextetChar (b0 % 4 * 16 + b1 / 16),
      sextetChar (b1 % 16 * 4), '='] = [b0, b1]
    unfold b64decode
    rw [if_pos rfl, if_neg (sextetChar_ne_pad _), if_pos rfl]
    unfold b64byte0 b64byte1
    rw [charSextet_sextetChar (by omega), charSextet_sextetChar (by omega),
      charSextet_sextetChar (by omega)]
    simp only [List.cons.injEq, and_true]
    omega
  | case4 b0 b1 b2 rest ih =>
    have hb0 : b0 < 256 := h b0 (by simp)
    have hb1 : b1 < 256 := h b1 (by simp)
    have hb2 : b2 < 256 := h b2 (by simp)
    have hrest : ∀ b ∈ rest, b < 256 := fun b hb => h b (by simp [hb])
    show b64decode (sextetChar (b0 / 4) :: sextetChar (b0 % 4 * 16 + b1 / 16) ::
      sextetChar (b1 % 16 * 4 + b2 / 64) :: sextetChar (b2 % 64) :: b64encode rest) =
      b0 :: b1 :: b2 :: rest
    by_cases hr : rest = []
    · subst hr
      show b64decode [sextetChar (b0 / 4), sextetChar (b0 % 4 * 16 + b1 / 16),
        sextetChar (b1 % 16 * 4 + b2 / 64), sextetChar (b2 % 64)] = [b0, b1, b2]
      unfold b64decode
      rw [if_pos rfl, if_neg (sextetChar_ne_pad _), if_neg (sextetChar_ne_pad _)]
      unfold b64byte0 b64byte1 b64byte2
      rw [charSextet_sextetChar (by omega), charSextet_sextetChar (by omega),
        charSextet_sextetChar (by omega), charSextet_sextetChar (by omega)]
      simp only [List.cons.injEq, and_true]
      omega
    · have henc : b64encode rest ≠ [] := b64encode_ne_nil hr
      unfold b64decode
      rw [if_neg henc]
      unfold b64byte0 b64byte1 b64byte2
      rw [charSextet_sextetChar (by omega), charSextet_sextetChar (by omega),
        charSextet_sextetChar (by omega), charSextet_sextetChar (by omega),
        ih hrest]
      simp only [List.cons.injEq, and_true, true_and]
      omega

/-- Every character of a base64 encoding is plain ASCII. -/
theorem b64encode_ascii (bs : List Nat) : ∀ c ∈ b64encode bs, c.toNat < 128 := by
  induction bs using b64encode.induct with
  | case1 => intro c hc; simp [b64encode] at hc
  | case2 b0 =>
    intro c hc
    simp only [b64encode, List.mem_cons, List.not_mem_nil, or_false] at hc
    rcases hc with h | h | h | h <;> subst h <;> first | exact sextetChar_ascii _ | decide
  | case3 b0 b1 =>
    intro c hc
    simp only [b64encode, List.mem_cons, List.not_mem_nil, or_false] at hc
    rcases hc with h | h | h | h <;> subst h <;> first | exact sextetChar_ascii _ | decide
  | case4 b0 b1 b2 rest ih =>
    intro c hc
    simp only [b64encode, List.mem_cons] at hc
    rcases hc with h | h | h | h | h
    · subst h; exact sextetChar_ascii _
    · subst h; exact sextetChar_ascii _
    · subst h; exact sextetChar_ascii _
    · subst h; exact sextetChar_ascii _
    · exact ih c h

/-- One emitted string-evidence entry (`{"identifier": ..., "offset": ...,
"snippet_b64": ...}`). -/
structure StrEntry where
  identifier : String
  offset : Nat
  snippet : String
deriving DecidableEq

/-- Body of the `format_strings` loop for one string occurrence: byte data
is truncated to `string_sample_bytes` bytes and base64-encoded; other data
is stringified and truncated to `string_sample_bytes` characters. -/
def mkStrEntry (cfg : ScanConfig) : Nat × String × StrData → StrEntry
  | (offset, identifier, .bytes bs) =>
    ⟨identifier, offset, String.mk (b64encode (bs.take cfg.string_sample_bytes))⟩
  | (offset, identifier, .strv s) =>
    ⟨identifier, offset, String.mk (s.toList.take cfg.string_sample_bytes)⟩

/-- The `format_strings` loop with its running `enumerate` index: stops as
soon as the index reaches `max_strings`. -/
def format_strings_aux (cfg : ScanConfig) : Nat → List (Nat × String × StrData) → List StrEntry
  | _, [] => []
  | idx, occ :: rest =>
    if cfg.max_strings ≤ idx then []
    else mkStrEntry cfg occ :: format_strings_aux cfg (idx + 1) rest

/-- `format_strings` from the source. -/
def format_strings (m : RawMatch) (cfg : ScanConfig) : List StrEntry :=
  format_strings_aux cfg 0 m.strings

theorem format_strings_aux_eq (cfg : ScanConfig) :
    ∀ (l : List (Nat × String × StrData)) (idx : Nat),
      format_strings_aux cfg idx l =
        (l.take (cfg.max_strings - idx)).map (mkStrEntry cfg) := by
  intro l
  induction l with
  | nil => intro idx; simp [format_strings_aux]
  | cons occ rest ih =>
    intro idx
    unfold format_strings_aux
    by_cases hidx : cfg.max_strings ≤ idx
    · rw [if_pos hidx]
      have h0 : cfg.max_strings - idx = 0 := by omega
      rw [h0]
      rfl
    · rw [if_neg hidx, ih (idx + 1)]
      have hsucc : cfg.max_strings - idx = (cfg.max_strings - (idx + 1)) + 1 := by omega
      rw [hsucc, List.take_succ_cons, List.map_cons]

theorem format_strings_eq_take_map (m : RawMatch) (cfg : ScanConfig) :
    format_strings m cfg = (m.strings.take cfg.max_strings).map (mkStrEntry cfg) := by
  unfold format_strings
  rw [format_strings_aux_eq, Nat.sub_zero]

/-- Valid raw bytes: every value is below 256. -/
def validBytes : StrData → Bool
  | .bytes bs => bs.all fun b => decide (b < 256)
  | .strv _ => true

/-- Claim C2: every emitted record's string-sample list has at most
`max_strings` entries; each entry's underlying sample is the source data
truncated to at most `string_sample_bytes` bytes (characters for
non-binary data); binary samples are stored base64-encoded, which is
ASCII-safe and reversible (decoding the stored snippet returns exactly the
truncated sample). -/
theorem c2_string_sample_bounds (cfg : ScanConfig) (m : RawMatch)
    (hb : (m.strings.all fun occ => validBytes occ.2.2) = true) :
    (format_strings m cfg).length ≤ cfg.max_strings ∧
    format_strings m cfg = (m.strings.take cfg.max_strings).map (mkStrEntry cfg) ∧
    (∀ occ ∈ m.strings,
      (∀ bs, occ.2.2 = StrData.bytes bs →
        (mkStrEntry cfg occ).snippet.toList = b64encode (bs.take cfg.string_sample_bytes) ∧
        b64decode (mkStrEntry cfg occ).snippet.toList = bs.take cfg.string_sample_bytes ∧
        (bs.take cfg.string_sample_bytes).length ≤ cfg.string_sample_bytes ∧
        (∀ c ∈ (mkStrEntry cfg occ).snippet.toList, c.toNat < 128)) ∧
      (∀ s, occ.2.2 = StrData.strv s →
        (mkStrEntry cfg occ).snippet.length ≤ cfg.string_sample_bytes)) := by
  refine ⟨?_, format_strings_eq_take_map m cfg, ?_⟩
  · rw [format_strings_eq_take_map, List.length_map]
    exact List.length_take_le _ _
  · intro occ hocc
    obtain ⟨off, ident, d⟩ := occ
    constructor
    · intro bs hbs
      cases d with
      | strv s => simp at hbs
      | bytes bs2 =>
        have hbs2 : bs2 = bs := by simpa using hbs
        subst hbs2
        have hvalid : ∀ b ∈ bs2.take cfg.string_sample_bytes, b < 256 := by
          intro b hbmem
          have hv := List.all_eq_true.mp hb _ hocc
          simp only [validBytes, List.all_eq_true, decide_eq_true_eq] at hv
          exact hv b (List.take_subset _ _ hbmem)
        refine ⟨rfl, ?_, ?_, ?_⟩
        · exact b64decode_b64encode _ hvalid
        · exact List.length_take_le _ _
        · intro c hc
          exact b64encode_ascii _ c hc
    · intro s hs
      cases d with
      | bytes bs2 => simp at hs
      | strv s2 =>
        have hs2 : s2 = s := by simpa using hs
        subst hs2
        show (String.mk (s2.toList.take cfg.string_sample_bytes)).length ≤ _
        have hlen : (String.mk (s2.toList.take cfg.string_sample_bytes)).length =
            (s2.toList.take cfg.string_sample_bytes).length := rfl
        rw [hlen]
        exact List.length_take_le _ _

/-- Concrete string occurrences for exercising the truncation bounds. -/
def exampleMatch : RawMatch :=
  { rule := "r"
    nspace := "default"
    tags := []
    meta := []
    strings := [(0, "$a", .bytes [77, 90, 144, 0, 3]), (4, "$b", .strv "evil"),
                (9, "$c", .bytes [255]), (12, "$d", .bytes [1, 2]),
                (20, "$e", .bytes [0])] }

/-- Claim C2, witness: the bounds hold on a concrete match under the
default configuration. -/
theorem c2_string_sample_bounds_witness :
    (exampleMatch.strings.all fun occ => validBytes occ.2.2) = true ∧
    (format_strings exampleMatch defaultConfig).length ≤ defaultConfig.max_strings ∧
    format_strings exampleMatch defaultConfig =
      (exampleMatch.strings.take defaultConfig.max_strings).map (mkStrEntry defaultConfig) ∧
    (∀ occ ∈ exampleMatch.strings,
      (∀ bs, occ.2.2 = StrData.bytes bs →
        (mkStrEntry defaultConfig occ).snippet.toList =
          b64encode (bs.take defaultConfig.string_sample_bytes) ∧
        b64decode (mkStrEntry defaultConfig occ).snippet.toList =
          bs.take defaultConfig.string_sample_bytes ∧
        (bs.take defaultConfig.string_sample_bytes).length ≤ defaultConfig.string_sample_bytes ∧
        (∀ c ∈ (mkStrEntry defaultConfig occ).snippet.toList, c.toNat < 128)) ∧
      (∀ s, occ.2.2 = StrData.strv s →
        (mkStrEntry defaultConfig occ).snippet.length ≤ defaultConfig.string_sample_bytes)) :=
  ⟨by decide, c2_string_sample_bounds defaultConfig exampleMatch (by decide)⟩

/-- State of a `ChunkedJSONLWriter`.  `fileIndex` is `_file_index` (the
number of segment files opened so far), `lineCount` is `_line_count` of the
currently open segment, `isOpen` reflects `_fh` being non-null,
`prevCounts` lists the line counts of the segments already rotated out
(chronological), and `dirCreated` records that the constructor eagerly ran
`output_dir.mkdir`.  Only line counts are modelled; JSON serialization of
the written object is external. -/
structure ChunkedJSONLWriter where
  fileIndex : Nat
  lineCount : Nat
  isOpen : Bool
  prevCounts : List Nat
  dirCreated : Bool
deriving DecidableEq

/-- Writer state right after `__init__`: no segment opened yet, output
directory created. -/
def initWriter : ChunkedJSONLWriter :=
  { fileIndex := 0, lineCount := 0, isOpen := false, prevCounts := [], dirCreated := true }

/-- `_open_next_file`: close the current segment (recording its line
count) if one is open, then open a fresh one. -/
def openNextFile (w : ChunkedJSONLWriter) : ChunkedJSONLWriter :=
  { fileIndex := w.fileIndex + 1
    lineCount := 0
    isOpen := true
    prevCounts := if w.isOpen then w.prevCounts ++ [w.lineCount] else w.prevCounts
    dirCreated := w.dirCreated }

/-- `write`: rotate if no segment is open or the open one reached
`max_lines`, then append one line. -/
def writeLine (maxLines : Nat) (w : ChunkedJSONLWriter) : ChunkedJSONLWriter :=
  let w1 := if w.isOpen = false ∨ maxLines ≤ w.lineCount then openNextFile w else w
  { w1 with lineCount := w1.lineCount + 1 }

/-- `close`: drop the handle; counts and files are unchanged. -/
def closeWriter (w : ChunkedJSONLWriter) : ChunkedJSONLWriter :=
  { w with isOpen := false }

/-- Line counts of all segment files on disk, chronological. -/
def segments (w : ChunkedJSONLWriter) : List Nat :=
  w.prevCounts ++ (if w.isOpen then [w.lineCount] else [])

/-- State after `m` consecutive `write` calls on a fresh writer. -/
def writeMany (maxLines : Nat) : Nat → ChunkedJSONLWriter
  | 0 => initWriter
  | m + 1 => writeLine maxLines (writeMany maxLines m)

theorem writeMany_closed_form (N : Nat) (hN : 0 < N) :
    ∀ m : Nat, 0 < m →
      ∃ q r, m = q * N + r ∧ 0 < r ∧ r ≤ N ∧
        writeMany N m =
          { fileIndex := q + 1, lineCount := r, isOpen := true,
            prevCounts := List.replicate q N, dirCreated := true } := by
  intro m
  induction m with
  | zero => intro h; omega
  | succ m ih =>
    intro _
    by_cases hm : 0 < m
    · obtain ⟨q, r, hqr, hrpos, hrle, hw⟩ := ih hm
      by_cases hfull : r = N
      · have hmul : (q + 1) * N = q * N + N := by ring
        refine ⟨q + 1, 1, by omega, by omega, by omega, ?_⟩
        show writeLine N (writeMany N m) = _
        rw [hw]
        simp [writeLine, openNextFile, hfull, List.replicate_succ']
      · have hlt : ¬ (N ≤ r) := by omega
        refine ⟨q, r + 1, by omega, by omega, by omega, ?_⟩
        show writeLine N (writeMany N m) = _
        rw [hw]
        simp [writeLine, hlt]
    · have hm0 : m = 0 := by omega
      subst hm0
      refine ⟨0, 1, by omega, by omega, by omega, ?_⟩
      show writeLine N (writeMany N 0) = _
      simp [writeMany, writeLine, openNextFile, initWriter]

/-- Claim C5: with rotation threshold `N > 0`, after `M` records the sink
holds `ceil(M/N)` segment files; every segment but the last holds exactly
`N` lines; the last holds `M mod N` lines (`N` when `M` is a positive
multiple of `N`). -/
theorem c5_rotation (N M : Nat) (hN : 0 < N) :
    (segments (writeMany N M)).length = (M + N - 1) / N ∧
    (∀ c ∈ (segments (writeMany N M)).dropLast, c = N) ∧
    (0 < M → (segments (writeMany N M)).getLast? =
      some (if M % N = 0 then N else M % N)) := by
  by_cases hM : 0 < M
  · obtain ⟨q, r, hqr, hrpos, hrle, hw⟩ := writeMany_closed_form N hN M hM
    have hseg : segments (writeMany N M) = List.replicate q N ++ [r] := by
      rw [hw]
      unfold segments
      simp
    have hdiv : (M + N - 1) / N = q + 1 := by
      have harith : M + N - 1 = (r - 1) + (q + 1) * N := by
        have hmul : (q + 1) * N = q * N + N := by ring
        omega
      rw [harith, Nat.add_mul_div_right _ _ hN, Nat.div_eq_of_lt (by omega)]
      omega
    have hmod : M % N = r % N := by
      have hM2 : M = r + q * N := by omega
      rw [hM2, Nat.add_mul_mod_self_right]
    refine ⟨?_, ?_, ?_⟩
    · rw [hseg, hdiv]
      simp
    · intro c hc
      rw [hseg, List.dropLast_concat] at hc
      exact List.eq_of_mem_replicate hc
    · intro _
      rw [hseg, List.getLast?_concat, hmod]
      by_cases hfull : r = N
      · rw [if_pos (by rw [hfull, Nat.mod_self]), hfull]
      · rw [Nat.mod_eq_of_lt (by omega), if_neg (by omega)]
  · have hM0 : M = 0 := by omega
    subst hM0
    refine ⟨?_, ?_, ?_⟩
    · show (segments initWriter).length = (0 + N - 1) / N
      have hz : (N - 1) / N = 0 := Nat.div_eq_of_lt (by omega)
      simpa [segments, initWriter] using hz.symm
    · intro c hc
      simp [segments, writeMany, initWriter] at hc
    · intro h
      omega

/-- Claim C5, witness: seven records at threshold three give segments
`[3, 3, 1]`. -/
theorem c5_rotation_witness :
    (segments (writeMany 3 7)).length = (7 + 3 - 1) / 3 ∧
    (∀ c ∈ (segments (writeMany 3 7)).dropLast, c = 3) ∧
    (0 < 7 → (segments (writeMany 3 7)).getLast? =
      some (if 7 % 3 = 0 then 3 else 7 % 3)) :=
  c5_rotation 3 7 (by decide)

/-- `ScriptContext` (the fields `scan_file` reads). -/
structure ScriptContext where
  case_id : Option String
  evidence_uid : Option String
deriving DecidableEq

/-- The record dict built per retained match in `scan_file`. -/
structure DetectionRecord where
  timestamp : Option String
  case_id : Option String
  evidence_uid : Option String
  source : String
  file_path : String
  file_size : Option Nat
  rule_name : String
  rule_namespace : String
  tags : List String
  severity : Option Rat
  meta : List (String × PyVal)
  strings : List StrEntry
deriving DecidableEq

/-- Builds the emitted record exactly as `scan_file` does. -/
def buildRecord (ctx : ScriptContext) (cfg : ScanConfig) (ts : Option String)
    (fpath : String) (fsize : Option Nat) (m : RawMatch) : DetectionRecord :=
  { timestamp := ts
    case_id := ctx.case_id
    evidence_uid := ctx.evidence_uid
    source := "yara_disk_scan"
    file_path := fpath
    file_size := fsize
    rule_name := m.rule
    rule_namespace := m.nspace
    tags := m.tags
    severity := extract_severity m.meta
    meta := m.meta
    strings := format_strings m cfg }

/-- Result of `rules.match(data=..., timeout=...)` on one file: the full
list of raw matches, or the raised `yara.TimeoutError`/`yara.Error`. -/
inductive MatchOutcome where
  | timeout
  | engineError
  | ok (ms : List RawMatch)
deriving DecidableEq

/-- One qualifying file reaching `scan_file`, with the externally supplied
outcomes of its bounded read (`none` = `FilesystemError`/`OSError`) and of
the single matcher invocation on its bytes. -/
structure FileJob where
  path : String
  timestamp : Option String
  size : Nat
  readData : Option (List Nat)
  outcome : MatchOutcome
deriving DecidableEq

/-- The emission loop of `scan_file` over the raw matches, threading the
writer and the running `matches_written` counter `n`: dropped matches are
skipped; otherwise a record is built and written, and the loop breaks once
the counter reaches `max_matches_per_file`.  Returns the final writer and
counter. -/
def emitMatches (ctx : ScriptContext) (cfg : ScanConfig) (N : Nat) (ts : Option String)
    (fpath : String) (fsize : Option Nat) :
    List RawMatch → Nat → ChunkedJSONLWriter → ChunkedJSONLWriter × Nat
  | [], n, w => (w, n)
  | m :: rest, n, w =>
    if dropMatch cfg m then emitMatches ctx cfg N ts fpath fsize rest n w
    else
      let _record := buildRecord ctx cfg ts fpath fsize m
      let w' := writeLine N w
      let n' := n + 1
      if cfg.max_matches_per_file ≤ n' then (w', n')
      else emitMatches ctx cfg N ts fpath fsize rest n' w'

/-- `scan_file` from the source: an unreadable or empty read contributes
nothing and never invokes the engine; a timeout or engine error is caught
and contributes nothing; otherwise the emission loop runs over the full
match list.  Returns (writer, `matches_written`, number of engine
invocations). -/
def scan_file (ctx : ScriptContext) (cfg : ScanConfig) (N : Nat) (j : FileJob)
    (w : ChunkedJSONLWriter) : ChunkedJSONLWriter × Nat × Nat :=
  match j.readData with
  | none => (w, 0, 0)
  | some data =>
    if data = [] then (w, 0, 0)
    else
      match j.outcome with
      | .timeout => (w, 0, 1)
      | .engineError => (w, 0, 1)
      | .ok ms =>
        let r := emitMatches ctx cfg N j.timestamp j.path (some j.size) ms 0 w
        (r.1, r.2, 1)

/-- The scan loop of `main` over the walked files: each file is fully
scanned before the next; returns the final writer and the per-file
`matches_written` counts, in order. -/
def runScan (ctx : ScriptContext) (cfg : ScanConfig) (N : Nat) :
    List FileJob → ChunkedJSONLWriter → ChunkedJSONLWriter × List Nat
  | [], w => (w, [])
  | j :: rest, w =>
    let s := scan_file ctx cfg N j w
    let r := runScan ctx cfg N rest s.1
    (r.1, s.2.1 :: r.2)

/-- Writer-free version of the emission counter. -/
def emitCount (cfg : ScanConfig) : List RawMatch → Nat → Nat
  | [], n => n
  | m :: rest, n =>
    if dropMatch cfg m then emitCount cfg rest n
    else if cfg.max_matches_per_file ≤ n + 1 then n + 1
    else emitCount cfg rest (n + 1)

/-- Number of records a file contributes, independent of writer state. -/
def jobCount (cfg : ScanConfig) (j : FileJob) : Nat :=
  match j.readData with
  | none => 0
  | some data =>
    if data = [] then 0
    else
      match j.outcome with
      | .ok ms => emitCount cfg ms 0
      | _ => 0

theorem emitMatches_count (ctx : ScriptContext) (cfg : ScanConfig) (N : Nat)
    (ts : Option String) (fp : String) (fs : Option Nat) :
    ∀ (ms : List RawMatch) (n : Nat) (w : ChunkedJSONLWriter),
      (emitMatches ctx cfg N ts fp fs ms n w).2 = emitCount cfg ms n := by
  intro ms
  induction ms with
  | nil => intro n w; rfl
  | cons m rest ih =>
    intro n w
    unfold emitMatches emitCount
    by_cases hd : dropMatch cfg m = true
    · rw [if_pos hd, if_pos hd]
      exact ih n w
    · rw [if_neg hd, if_neg hd]
      by_cases hc : cfg.max_matches_per_file ≤ n + 1
      · rw [if_pos hc, if_pos hc]
      · rw [if_neg hc, if_neg hc]
        exact ih (n + 1) (writeLine N w)

theorem emitCount_ge (cfg : ScanConfig) :
    ∀ (ms : List RawMatch) (n : Nat), n ≤ emitCount cfg ms n := by
  intro ms
  induction ms with
  | nil => intro n; exact le_refl n
  | cons m rest ih =>
    intro n
    unfold emitCount
    by_cases hd : dropMatch cfg m = true
    · rw [if_pos hd]; exact ih n
    · rw [if_neg hd]
      by_cases hc : cfg.max_matches_per_file ≤ n + 1
      · rw [if_pos hc]; omega
      · rw [if_neg hc]
        exact le_trans (by omega) (ih (n + 1))

theorem emitCount_eq_min (cfg : ScanConfig) :
    ∀ (ms : List RawMatch) (n : Nat), n < cfg.max_matches_per_file →
      emitCount cfg ms n =
        min cfg.max_matches_per_file (n + (ms.filter fun m => !dropMatch cfg m).length) := by
  intro ms
  induction ms with
  | nil =>
    intro n hn
    unfold emitCount
    simp only [List.filter_nil, List.length_nil, Nat.add_zero]
    omega
  | cons m rest ih =>
    intro n hn
    unfold emitCount
    rw [List.filter_cons]
    by_cases hd : dropMatch cfg m = true
    · rw [if_pos hd]
      have hb : (!dropMatch cfg m) = false := by rw [hd]; rfl
      rw [hb]
      simp only [Bool.false_eq_true, if_false]
      exact ih n hn
    · rw [if_neg hd]
      have hb : (!dropMatch cfg m) = true := by
        cases hdm : dropMatch cfg m
        · rfl
        · exact absurd hdm hd
      rw [hb]
      simp only [if_true, List.length_cons]
      by_cases hc : cfg.max_matches_per_file ≤ n + 1
      · rw [if_pos hc]
        omega
      · rw [if_neg hc]
        rw [ih (n + 1) (by omega)]
        omega

theorem emitMatches_writer_of_count_eq (ctx : ScriptContext) (cfg : ScanConfig) (N : Nat)
    (ts : Option String) (fp : String) (fs : Option Nat) :
    ∀ (ms : List RawMatch) (n : Nat) (w : ChunkedJSONLWriter),
      emitCount cfg ms n = n → (emitMatches ctx cfg N ts fp fs ms n w).1 = w := by
  intro ms
  induction ms with
  | nil => intro n w _; rfl
  | cons m rest ih =>
    intro n w hcount
    unfold emitMatches
    by_cases hd : dropMatch cfg m = true
    · rw [if_pos hd]
      apply ih
      unfold emitCount at hcount
      rwa [if_pos hd] at hcount
    · exfalso
      unfold emitCount at hcount
      rw [if_neg hd] at hcount
      by_cases hc : cfg.max_matches_per_file ≤ n + 1
      · rw [if_pos hc] at hcount
        omega
      · rw [if_neg hc] at hcount
        have := emitCount_ge cfg rest (n + 1)
        omega

theorem scan_file_count (ctx : ScriptContext) (cfg : ScanConfig) (N : Nat)
    (j : FileJob) (w : ChunkedJSONLWriter) :
    (scan_file ctx cfg N j w).2.1 = jobCount cfg j := by
  unfold scan_file jobCount
  cases j.readData with
  | none => rfl
  | some data =>
    by_cases hdata : data = []
    · simp only [if_pos hdata]
    · simp only [if_neg hdata]
      cases j.outcome with
      | timeout => rfl
      | engineError => rfl
      | ok ms =>
        exact emitMatches_count ctx cfg N j.timestamp j.path (some j.size) ms 0 w

theorem scan_file_writer_of_count_zero (ctx : ScriptContext) (cfg : ScanConfig) (N : Nat)
    (j : FileJob) (w : ChunkedJSONLWriter)
    (h : (scan_file ctx cfg N j w).2.1 = 0) : (scan_file ctx cfg N j w).1 = w := by
  unfold scan_file at h ⊢
  cases hr : j.readData with
  | none => rfl
  | some data =>
    rw [hr] at h
    by_cases hdata : data = []
    · simp only [if_pos hdata]
    · simp only [if_neg hdata] at h ⊢
      cases ho : j.outcome with
      | timeout => rfl
      | engineError => rfl
      | ok ms =>
        rw [ho] at h
        have hcount : emitCount cfg ms 0 = 0 := by
          rw [← emitMatches_count ctx cfg N j.timestamp j.path (some j.size) ms 0 w]
          exact h
        exact emitMatches_writer_of_count_eq ctx cfg N j.timestamp j.path (some j.size)
          ms 0 w hcount

theorem runScan_counts (ctx : ScriptContext) (cfg : ScanConfig) (N : Nat) :
    ∀ (jobs : List FileJob) (w : ChunkedJSONLWriter),
      (runScan ctx cfg N jobs w).2 = jobs.map (jobCount cfg) := by
  intro jobs
  induction jobs with
  | nil => intro w; rfl
  | cons j rest ih =>
    intro w
    unfold runScan
    simp only [List.map_cons]
    rw [ih, scan_file_count]

theorem runScan_writer_of_sum_zero (ctx : ScriptContext) (cfg : ScanConfig) (N : Nat) :
    ∀ (jobs : List FileJob) (w : ChunkedJSONLWriter),
      ((runScan ctx cfg N jobs w).2).sum = 0 → (runScan ctx cfg N jobs w).1 = w := by
  intro jobs
  induction jobs with
  | nil => intro w _; rfl
  | cons j rest ih =>
    intro w hsum
    unfold runScan at hsum ⊢
    simp only [List.sum_cons] at hsum
    have hj : (scan_file ctx cfg N j w).2.1 = 0 := by omega
    have hrest : ((runScan ctx cfg N rest (scan_file ctx cfg N j w).1).2).sum = 0 := by omega
    have hw : (scan_file ctx cfg N j w).1 = w := scan_file_writer_of_count_zero ctx cfg N j w hj
    show (runScan ctx cfg N rest (scan_file ctx cfg N j w).1).1 = w
    rw [hw] at hrest ⊢
    exact ih w hrest

/-- Claim C6, counterexample: the cap is checked only after a record is
written, so with `max_matches_per_file = 0` a file with one retained match
still emits one record, exceeding the claimed bound. -/
theorem c6_cap_zero_emits_one :
    (scan_file ⟨none, none⟩ { defaultConfig with max_matches_per_file := 0 } 100000
      { path := "/a.exe", timestamp := none, size := 3, readData := some [77, 90, 0],
        outcome := .ok [{ rule := "r", nspace := "default", tags := [], meta := [],
                          strings := [] }] }
      initWriter).2.1 = 1 ∧
    ¬ (1 ≤ ({ defaultConfig with max_matches_per_file := 0 } : ScanConfig).max_matches_per_file) := by
  constructor
  · rfl
  · decide

/-- Claim C6, amended: provided `max_matches_per_file ≥ 1`, a qualifying
file emits exactly `min max_matches_per_file r` records, where `r` is the
number of raw matches retained by the severity policy — hence at most
`max_matches_per_file` — while the matching engine is invoked exactly once
on the file, its full match list being produced before the emission cap is
applied. -/
theorem c6_emission_cap (ctx : ScriptContext) (cfg : ScanConfig) (N : Nat)
    (j : FileJob) (w : ChunkedJSONLWriter) (data : List Nat) (ms : List RawMatch)
    (hcap : 1 ≤ cfg.max_matches_per_file)
    (hdata : j.readData = some data) (hne : data ≠ [])
    (hok : j.outcome = .ok ms) :
    (scan_file ctx cfg N j w).2.1 =
      min cfg.max_matches_per_file ((ms.filter fun m => !dropMatch cfg m).length) ∧
    (scan_file ctx cfg N j w).2.1 ≤ cfg.max_matches_per_file ∧
    (scan_file ctx cfg N j w).2.2 = 1 := by
  have hmain : (scan_file ctx cfg N j w).2.1 =
      min cfg.max_matches_per_file ((ms.filter fun m => !dropMatch cfg m).length) := by
    unfold scan_file
    rw [hdata]
    simp only [if_neg hne, hok]
    show (emitMatches ctx cfg N j.timestamp j.path (some j.size) ms 0 w).2 = _
    rw [emitMatches_count, emitCount_eq_min cfg ms 0 (by omega), Nat.zero_add]
  refine ⟨hmain, ?_, ?_⟩
  · rw [hmain]
    exact Nat.min_le_left _ _
  · unfold scan_file
    rw [hdata]
    simp only [if_neg hne, hok]

/-- A retained match with no metadata, used by concrete scan scenarios. -/
def plainMatch : RawMatch :=
  { rule := "r", nspace := "default", tags := [], meta := [], strings := [] }

/-- A readable job whose match run yields ten raw matches. -/
def jobTen : FileJob :=
  { path := "/x.exe", timestamp := none, size := 3, readData := some [77, 90, 0],
    outcome := .ok (List.replicate 10 plainMatch) }

/-- Claim C6, witness: ten retained raw matches under the default cap of
five produce exactly `min 5 10 = 5` records from one engine invocation. -/
theorem c6_emission_cap_witness :
    (scan_file ⟨none, none⟩ defaultConfig 100000 jobTen initWriter).2.1 =
      min defaultConfig.max_matches_per_file
        (((List.replicate 10 plainMatch).filter fun m => !dropMatch defaultConfig m).length) ∧
    (scan_file ⟨none, none⟩ defaultConfig 100000 jobTen initWriter).2.1 ≤
      defaultConfig.max_matches_per_file ∧
    (scan_file ⟨none, none⟩ defaultConfig 100000 jobTen initWriter).2.2 = 1 :=
  c6_emission_cap ⟨none, none⟩ defaultConfig 100000 jobTen initWriter [77, 90, 0]
    (List.replicate 10 plainMatch) (by decide) rfl (by decide) rfl

/-- Claim C8: a job that fails to read, times out in the matcher, or hits
any other matcher error contributes zero detections, and the scan still
processes every other file, each contributing exactly what it would in any
scan: the per-file counts around the failing file are its neighbours' own
counts. -/
theorem c8_fault_isolation (ctx : ScriptContext) (cfg : ScanConfig) (N : Nat)
    (xs ys : List FileJob) (j : FileJob) (w : ChunkedJSONLWriter)
    (hfail : j.readData = none ∨ j.outcome = .timeout ∨ j.outcome = .engineError) :
    jobCount cfg j = 0 ∧
    (runScan ctx cfg N (xs ++ j :: ys) w).2 =
      xs.map (jobCount cfg) ++ 0 :: ys.map (jobCount cfg) ∧
    (runScan ctx cfg N (xs ++ j :: ys) w).2.length = xs.length + 1 + ys.length := by
  have hj : jobCount cfg j = 0 := by
    unfold jobCount
    rcases hfail with h | h | h
    · rw [h]
    · cases hr : j.readData with
      | none => rfl
      | some data =>
        by_cases hdata : data = []
        · simp only [if_pos hdata]
        · simp only [if_neg hdata, h]
    · cases hr : j.readData with
      | none => rfl
      | some data =>
        by_cases hdata : data = []
        · simp only [if_pos hdata]
        · simp only [if_neg hdata, h]
  refine ⟨hj, ?_, ?_⟩
  · rw [runScan_counts]
    simp [hj]
  · rw [runScan_counts]
    simp only [List.length_map, List.length_append, List.length_cons]
    omega

/-- A job that produces one detection. -/
def jobHit : FileJob :=
  { path := "/y.exe", timestamp := none, size := 3, readData := some [77, 90, 0],
    outcome := .ok [plainMatch] }

/-- A job whose matcher invocation times out. -/
def jobTimeout : FileJob :=
  { path := "/t.exe", timestamp := none, size := 3, readData := some [77, 90, 0],
    outcome := .timeout }

/-- Claim C8, witness: a timeout on the first file leaves the two
following files contributing their own counts. -/
theorem c8_fault_isolation_witness :
    jobCount defaultConfig jobTimeout = 0 ∧
    (runScan ⟨none, none⟩ defaultConfig 100000 ([] ++ jobTimeout :: [jobHit, jobTen])
      initWriter).2 =
      ([] : List FileJob).map (jobCount defaultConfig) ++
        0 :: [jobHit, jobTen].map (jobCount defaultConfig) ∧
    (runScan ⟨none, none⟩ defaultConfig 100000 ([] ++ jobTimeout :: [jobHit, jobTen])
      initWriter).2.length = ([] : List FileJob).length + 1 + [jobHit, jobTen].length :=
  c8_fault_isolation ⟨none, none⟩ defaultConfig 100000 [] [jobHit, jobTen] jobTimeout
    initWriter (Or.inr (Or.inl rfl))

/-- Claim C10: a scan in which no record is emitted leaves the writer
exactly as constructed: the output directory was created eagerly, but no
segment file was ever opened (`fileIndex = 0`), and closing changes
nothing — so no `yara_disk_matches` segment exists. -/
theorem c10_no_segment_without_detections (ctx : ScriptContext) (cfg : ScanConfig)
    (N : Nat) (jobs : List FileJob)
    (h : ((runScan ctx cfg N jobs initWriter).2).sum = 0) :
    (closeWriter (runScan ctx cfg N jobs initWriter).1).fileIndex = 0 ∧
    (closeWriter (runScan ctx cfg N jobs initWriter).1).dirCreated = true ∧
    segments (closeWriter (runScan ctx cfg N jobs initWriter).1) = [] := by
  have hw : (runScan ctx cfg N jobs initWriter).1 = initWriter :=
    runScan_writer_of_sum_zero ctx cfg N jobs initWriter h
  rw [hw]
  refine ⟨rfl, rfl, rfl⟩

/-- Claim C10, witness: a scan over an unreadable file and a timing-out
file emits nothing and leaves no segment file. -/
theorem c10_no_segment_without_detections_witness :
    ((runScan ⟨none, none⟩ defaultConfig 100000
      [{ path := "/u.exe", timestamp := none, size := 3, readData := none,
         outcome := .ok [plainMatch] }, jobTimeout] initWriter).2).sum = 0 ∧
    (closeWriter (runScan ⟨none, none⟩ defaultConfig 100000
      [{ path := "/u.exe", timestamp := none, size := 3, readData := none,
         outcome := .ok [plainMatch] }, jobTimeout] initWriter).1).fileIndex = 0 ∧
    (closeWriter (runScan ⟨none, none⟩ defaultConfig 100000
      [{ path := "/u.exe", timestamp := none, size := 3, readData := none,
         outcome := .ok [plainMatch] }, jobTimeout] initWriter).1).dirCreated = true ∧
    segments (closeWriter (runScan ⟨none, none⟩ defaultConfig 100000
      [{ path := "/u.exe", timestamp := none, size := 3, readData := none,
         outcome := .ok [plainMatch] }, jobTimeout] initWriter).1) = [] :=
  ⟨by rfl, c10_no_segment_without_detections ⟨none, none⟩ defaultConfig 100000
    [{ path := "/u.exe", timestamp := none, size := 3, readData := none,
       outcome := .ok [plainMatch] }, jobTimeout] (by rfl)⟩

/-- Characters of the canonical string of a path, segments joined by `/`
(abstraction of `str(TargetPath)`). -/
def joinParts : List String → List Char
  | [] => []
  | [p] => p.toList
  | p :: rest => p.toList ++ '/' :: joinParts rest

/-- Canonical string of a path. -/
def pathStr (parts : List String) : String := String.mk (joinParts parts)

/-- Case-insensitive canonical key of a path, `str(path).lower()`, as the
visited-set and the root deduplication use it. -/
def pathKey (e : Entry) : String := pyLower (pathStr e.parts)

/-- `entry.name`: the last path segment. -/
def entryName (e : Entry) : String := e.parts.getLastD ""

/-- The evidence filesystem's directory listing, as data: pairs of a
canonical path string and the result of `iterdir()` there (`none` when
`iterdir` raises `FilesystemError`).  Paths absent from the list also
answer `none`.  Nothing constrains the graph: entries may point back at
ancestors, modelling symlink or duplicate-mount cycles. -/
def lookupDir : List (String × Option (List Entry)) → String → Option (List Entry)
  | [], _ => none
  | (a, r) :: rest, s => if a = s then r else lookupDir rest s

/-- Every key a directory listing can ever hand out. -/
def fsKeys (fs : List (String × Option (List Entry))) : Finset String :=
  ((fs.map fun p => (p.2.getD []).map pathKey).flatten).toFinset

/-- Keys of a traversal stack. -/
def stackKeys (st : List Entry) : Finset String := (st.map pathKey).toFinset

/-- Number of keys the walk may still visit: keys offered by the
filesystem or already on the stack, minus the visited ones. -/
def walkMeasure (fs : List (String × Option (List Entry))) (st : List Entry)
    (visited : List String) : Nat :=
  ((fsKeys fs ∪ stackKeys st) \ visited.toFinset).card

theorem mem_fsKeys (fs : List (String × Option (List Entry))) (x : String) :
    x ∈ fsKeys fs ↔ ∃ p ∈ fs, ∃ e ∈ p.2.getD [], pathKey e = x := by
  unfold fsKeys
  rw [List.mem_toFinset, List.mem_flatten]
  constructor
  · rintro ⟨l, hl, hx⟩
    rw [List.mem_map] at hl
    obtain ⟨p, hp, rfl⟩ := hl
    rw [List.mem_map] at hx
    obtain ⟨e, he, rfl⟩ := hx
    exact ⟨p, hp, e, he, rfl⟩
  · rintro ⟨p, hp, e, he, rfl⟩
    refine ⟨(p.2.getD []).map pathKey, ?_, ?_⟩
    · exact List.mem_map_of_mem _ hp
    · exact List.mem_map_of_mem _ he

theorem lookupDir_mem_fsKeys (fs : List (String × Option (List Entry))) (s : String)
    (es : List Entry) (h : lookupDir fs s = some es) :
    ∀ e ∈ es, pathKey e ∈ fsKeys fs := by
  induction fs with
  | nil => simp [lookupDir] at h
  | cons p rest ih =>
    obtain ⟨a, r⟩ := p
    unfold lookupDir at h
    by_cases ha : a = s
    · rw [if_pos ha] at h
      intro e he
      rw [mem_fsKeys]
      refine ⟨(a, r), List.mem_cons_self _ _, e, ?_, rfl⟩
      rw [h]
      exact he
    · rw [if_neg ha] at h
      intro e he
      have hrest := ih h e he
      rw [mem_fsKeys] at hrest ⊢
      obtain ⟨q, hq, e2, he2, hke⟩ := hrest
      exact ⟨q, List.mem_cons_of_mem _ hq, e2, he2, hke⟩

theorem walkMeasure_le (fs : List (String × Option (List Entry))) (current : Entry)
    (rest : List Entry) (visited : List String) :
    walkMeasure fs rest visited ≤ walkMeasure fs (current :: rest) visited := by
  unfold walkMeasure
  apply Finset.card_le_card
  intro x hx
  rw [Finset.mem_sdiff] at hx ⊢
  refine ⟨?_, hx.2⟩
  rcases Finset.mem_union.mp hx.1 with h | h
  · exact Finset.mem_union_left _ h
  · apply Finset.mem_union_right
    unfold stackKeys at h ⊢
    rw [List.mem_toFinset, List.mem_map] at h
    obtain ⟨e, he, rfl⟩ := h
    rw [List.mem_toFinset, List.mem_map]
    exact ⟨e, List.mem_cons_of_mem _ he, rfl⟩

theorem walkMeasure_lt (fs : List (String × Option (List Entry))) (current : Entry)
    (rest newst : List Entry) (visited : List String)
    (hnew : ∀ e ∈ newst, pathKey e ∈ fsKeys fs ∨ e ∈ rest)
    (hvis : pathKey current ∉ visited) :
    walkMeasure fs newst (pathKey current :: visited) <
      walkMeasure fs (current :: rest) visited := by
  unfold walkMeasure
  have hk : pathKey current ∈ (fsKeys fs ∪ stackKeys (current :: rest)) \ visited.toFinset := by
    rw [Finset.mem_sdiff]
    constructor
    · apply Finset.mem_union_right
      unfold stackKeys
      rw [List.mem_toFinset, List.mem_map]
      exact ⟨current, List.mem_cons_self _ _, rfl⟩
    · rw [List.mem_toFinset]
      exact hvis
  have hsub : (fsKeys fs ∪ stackKeys newst) \ (pathKey current :: visited).toFinset ⊆
      ((fsKeys fs ∪ stackKeys (current :: rest)) \ visited.toFinset).erase (pathKey current) := by
    intro x hx
    rw [Finset.mem_sdiff] at hx
    obtain ⟨hxU, hxV⟩ := hx
    rw [List.toFinset_cons, Finset.mem_insert] at hxV
    push_neg at hxV
    obtain ⟨hxk, hxv⟩ := hxV
    rw [Finset.mem_erase, Finset.mem_sdiff]
    refine ⟨hxk, ?_, hxv⟩
    rcases Finset.mem_union.mp hxU with h | h
    · exact Finset.mem_union_left _ h
    · unfold stackKeys at h
      rw [List.mem_toFinset, List.mem_map] at h
      obtain ⟨e, he, rfl⟩ := h
      rcases hnew e he with hf | hr
      · exact Finset.mem_union_left _ hf
      · apply Finset.mem_union_right
        unfold stackKeys
        rw [List.mem_toFinset, List.mem_map]
        exact ⟨e, List.mem_cons_of_mem _ hr, rfl⟩
  calc ((fsKeys fs ∪ stackKeys newst) \ (pathKey current :: visited).toFinset).card
      ≤ (((fsKeys fs ∪ stackKeys (current :: rest)) \ visited.toFinset).erase
          (pathKey current)).card := Finset.card_le_card hsub
    _ < ((fsKeys fs ∪ stackKeys (current :: rest)) \ visited.toFinset).card :=
        Finset.card_erase_lt_of_mem hk

/-- Directories the walk pushes from one listing: classified as
directories, whose lower-cased name is not deny-listed. -/
def pushedDirs (cfg : ScanConfig) (entries : List Entry) : List Entry :=
  entries.filter fun e =>
    decide (e.kind = some EntryKind.dir) && !decide (pyLower (entryName e) ∈ cfg.exclude_dirs)

/-- Files the walk yields from one listing: classified as files and
admitted by `should_scan_file`. -/
def yieldedFiles (cfg : ScanConfig) (entries : List Entry) : List Entry :=
  entries.filter fun e =>
    decide (e.kind = some EntryKind.file) && (should_scan_file e cfg).isSome

/-- `walk_files` from the source: iterative stack walk with a visited set
keyed by `str(path).lower()`.  Pops the top of the stack; skips it when
its key was already visited; otherwise records the key, lists the
directory (a listing failure only skips it), pushes its sub-directories
(deny-listed names pruned; Python's `list.pop()` takes the most recently
appended entry, hence the `reverse`) and yields its admitted files.
Returns (keys listed, files yielded).  Totality of this definition — over
an arbitrary, possibly cyclic filesystem graph — is the termination
guarantee: the measure is the set of keys not yet visited. -/
def walkAux (fs : List (String × Option (List Entry))) (cfg : ScanConfig)
    (st : List Entry) (visited : List String) : List String × List Entry :=
  match st with
  | [] => ([], [])
  | current :: rest =>
    if hvis : pathKey current ∈ visited then walkAux fs cfg rest visited
    else
      match hlk : lookupDir fs (pathStr current.parts) with
      | none =>
        let r := walkAux fs cfg rest (pathKey current :: visited)
        (pathKey current :: r.1, r.2)
      | some entries =>
        let r := walkAux fs cfg ((pushedDirs cfg entries).reverse ++ rest)
          (pathKey current :: visited)
        (pathKey current :: r.1, yieldedFiles cfg entries ++ r.2)
termination_by (walkMeasure fs st visited, st.length)
decreasing_by
  · rcases lt_or_eq_of_le (walkMeasure_le fs current rest visited) with hlt | heq
    · exact Prod.Lex.left _ _ hlt
    · rw [heq]
      exact Prod.Lex.right _ (Nat.lt_succ_self _)
  · apply Prod.Lex.left
    exact walkMeasure_lt fs current rest rest visited (fun e he => Or.inr he) hvis
  · apply Prod.Lex.left
    apply walkMeasure_lt fs current rest _ visited _ hvis
    intro e he
    rcases List.mem_append.mp he with hd | hr
    · left
      rw [List.mem_reverse] at hd
      exact lookupDir_mem_fsKeys fs _ entries hlk e (List.mem_of_mem_filter hd)
    · right
      exact hr

theorem walkAux_nil (fs : List (String × Option (List Entry))) (cfg : ScanConfig)
    (visited : List String) : walkAux fs cfg [] visited = ([], []) := by
  rw [walkAux.eq_def]

theorem walkAux_visited (fs : List (String × Option (List Entry))) (cfg : ScanConfig)
    (current : Entry) (rest : List Entry) (visited : List String)
    (h : pathKey current ∈ visited) :
    walkAux fs cfg (current :: rest) visited = walkAux fs cfg rest visited := by
  rw [walkAux.eq_def]
  simp only [dif_pos h]

theorem walkAux_err (fs : List (String × Option (List Entry))) (cfg : ScanConfig)
    (current : Entry) (rest : List Entry) (visited : List String)
    (hvis : pathKey current ∉ visited)
    (hlk : lookupDir fs (pathStr current.parts) = none) :
    walkAux fs cfg (current :: rest) visited =
      (pathKey current :: (walkAux fs cfg rest (pathKey current :: visited)).1,
        (walkAux fs cfg rest (pathKey current :: visited)).2) := by
  rw [walkAux.eq_def]
  simp only [dif_neg hvis]
  split
  · rfl
  · next entries2 heq =>
    rw [hlk] at heq
    exact Option.noConfusion heq

theorem walkAux_ok (fs : List (String × Option (List Entry))) (cfg : ScanConfig)
    (current : Entry) (rest : List Entry) (visited : List String) (entries : List Entry)
    (hvis : pathKey current ∉ visited)
    (hlk : lookupDir fs (pathStr current.parts) = some entries) :
    walkAux fs cfg (current :: rest) visited =
      (pathKey current ::
        (walkAux fs cfg ((pushedDirs cfg entries).reverse ++ rest)
          (pathKey current :: visited)).1,
        yieldedFiles cfg entries ++
        (walkAux fs cfg ((pushedDirs cfg entries).reverse ++ rest)
          (pathKey current :: visited)).2) := by
  rw [walkAux.eq_def]
  simp only [dif_neg hvis]
  split
  · next heq =>
    rw [hlk] at heq
    exact Option.noConfusion heq
  · next entries2 heq =>
    rw [hlk] at heq
    injection heq with heq2
    subst heq2
    rfl

theorem walkAux_listed_fresh (fs : List (String × Option (List Entry))) (cfg : ScanConfig) :
    ∀ (st : List Entry) (visited : List String),
      (walkAux fs cfg st visited).1.Nodup ∧
        ∀ x ∈ (walkAux fs cfg st visited).1, x ∉ visited := by
  intro st visited
  induction st, visited using walkAux.induct fs cfg with
  | case1 visited =>
    rw [walkAux_nil]
    exact ⟨List.nodup_nil, by intro x hx; simp at hx⟩
  | case2 visited current rest hvis ih =>
    rw [walkAux_visited fs cfg current rest visited hvis]
    exact ih
  | case3 visited current rest hvis hlk ih =>
    rw [walkAux_err fs cfg current rest visited hvis hlk]
    obtain ⟨ih1, ih2⟩ := ih
    constructor
    · rw [List.nodup_cons]
      exact ⟨fun hmem => ih2 _ hmem (List.mem_cons_self _ _), ih1⟩
    · intro x hx hxv
      rcases List.mem_cons.mp hx with rfl | hx2
      · exact hvis hxv
      · exact ih2 x hx2 (List.mem_cons_of_mem _ hxv)
  | case4 visited current rest hvis entries hlk ih =>
    rw [walkAux_ok fs cfg current rest visited entries hvis hlk]
    obtain ⟨ih1, ih2⟩ := ih
    constructor
    · rw [List.nodup_cons]
      exact ⟨fun hmem => ih2 _ hmem (List.mem_cons_self _ _), ih1⟩
    · intro x hx hxv
      rcases List.mem_cons.mp hx with rfl | hx2
      · exact hvis hxv
      · exact ih2 x hx2 (List.mem_cons_of_mem _ hxv)

theorem walkAux_covers (fs : List (String × Option (List Entry))) (cfg : ScanConfig) :
    ∀ (st : List Entry) (visited : List String) (r : Entry), r ∈ st →
      pathKey r ∉ visited → pathKey r ∈ (walkAux fs cfg st visited).1 := by
  intro st visited
  induction st, visited using walkAux.induct fs cfg with
  | case1 visited => intro r hr _; simp at hr
  | case2 visited current rest hvis ih =>
    intro r hr hrv
    rw [walkAux_visited fs cfg current rest visited hvis]
    rcases List.mem_cons.mp hr with rfl | hr2
    · exact absurd hvis hrv
    · exact ih r hr2 hrv
  | case3 visited current rest hvis hlk ih =>
    intro r hr hrv
    rw [walkAux_err fs cfg current rest visited hvis hlk]
    rcases List.mem_cons.mp hr with rfl | hr2
    · exact List.mem_cons_self _ _
    · by_cases hk : pathKey r = pathKey current
      · rw [hk]
        exact List.mem_cons_self _ _
      · apply List.mem_cons_of_mem
        apply ih r hr2
        intro hmem
        rcases List.mem_cons.mp hmem with h | h
        · exact hk h
        · exact hrv h
  | case4 visited current rest hvis entries hlk ih =>
    intro r hr hrv
    rw [walkAux_ok fs cfg current rest visited entries hvis hlk]
    rcases List.mem_cons.mp hr with rfl | hr2
    · exact List.mem_cons_self _ _
    · by_cases hk : pathKey r = pathKey current
      · rw [hk]
        exact List.mem_cons_self _ _
      · apply List.mem_cons_of_mem
        apply ih r (List.mem_append.mpr (Or.inr hr2))
        intro hmem
        rcases List.mem_cons.mp hmem with h | h
        · exact hk h
        · exact hrv h

theorem walkAux_yield_qualified (fs : List (String × Option (List Entry)))
    (cfg : ScanConfig) :
    ∀ (st : List Entry) (visited : List String),
      ∀ e ∈ (walkAux fs cfg st visited).2, (should_scan_file e cfg).isSome = true := by
  intro st visited
  induction st, visited using walkAux.induct fs cfg with
  | case1 visited =>
    intro e he
    rw [walkAux_nil] at he
    simp at he
  | case2 visited current rest hvis ih =>
    intro e he
    rw [walkAux_visited fs cfg current rest visited hvis] at he
    exact ih e he
  | case3 visited current rest hvis hlk ih =>
    intro e he
    rw [walkAux_err fs cfg current rest visited hvis hlk] at he
    exact ih e he
  | case4 visited current rest hvis entries hlk ih =>
    intro e he
    rw [walkAux_ok fs cfg current rest visited entries hvis hlk] at he
    rcases List.mem_append.mp he with hy | hr
    · have hpred := List.of_mem_filter hy
      rw [Bool.and_eq_true] at hpred
      exact hpred.2
    · exact ih e hr

theorem should_scan_file_parts (e : Entry) (cfg : ScanConfig)
    (h : (should_scan_file e cfg).isSome = true) :
    ∀ p ∈ e.parts, pyLower p ∉ cfg.exclude_dirs := by
  intro p hp hmem
  unfold should_scan_file at h
  cases hs : e.statr with
  | none =>
    rw [hs] at h
    simp at h
  | some size =>
    rw [hs] at h
    by_cases h1 : size = 0 ∨ cfg.max_file_size < size
    · simp only [if_pos h1] at h
      simp at h
    · simp only [if_neg h1] at h
      by_cases h2 : extAllowed cfg e = false
      · simp only [if_pos h2] at h
        simp at h
      · simp only [if_neg h2] at h
        have h3 : partsDenied cfg e = true := by
          unfold partsDenied
          simp only [decide_eq_true_eq]
          exact ⟨p, hp, hmem⟩
        simp only [if_pos h3] at h
        simp at h

/-- Claim C9: every file the walk yields — the only files ever handed to
the matching engine — has no path segment whose lower-cased name is in the
directory deny-set, at any depth: the qualifier checks every segment of
`path.parts`, and the walk additionally prunes deny-listed directories
before descending. -/
theorem c9_denied_segment_never_scanned (fs : List (String × Option (List Entry)))
    (cfg : ScanConfig) (st : List Entry) (visited : List String) :
    ((walkAux fs cfg st visited).2.all fun e =>
      e.parts.all fun p => !decide (pyLower p ∈ cfg.exclude_dirs)) = true := by
  rw [List.all_eq_true]
  intro e he
  rw [List.all_eq_true]
  intro p hp
  rw [Bool.not_eq_true', decide_eq_false_iff_not]
  exact should_scan_file_parts e cfg
    (walkAux_yield_qualified fs cfg st visited e he) p hp

/-- One candidate of `ROOT_CANDIDATES` as `determine_roots` consumes it:
the result of `fs.path(candidate)` (`none` when it raises
`FilesystemError`) and of `path.exists()` (`none` when that raises). -/
structure RootCand where
  resolved : Option Entry
  existsr : Option Bool
deriving DecidableEq

/-- The candidate loop of `determine_roots`: skip candidates that fail to
resolve, whose existence check raises, or that do not exist; deduplicate
the rest by `str(path).lower()`. -/
def rootsLoop : List RootCand → List String → List Entry
  | [], _ => []
  | c :: rest, seen =>
    match c.resolved with
    | none => rootsLoop rest seen
    | some p =>
      match c.existsr with
      | none => rootsLoop rest seen
      | some false => rootsLoop rest seen
      | some true =>
        if pathKey p ∈ seen then rootsLoop rest seen
        else p :: rootsLoop rest (pathKey p :: seen)

/-- `determine_roots` from the source: the deduplicated surviving
candidates, or the filesystem root as fallback when none survived (empty
when even that raises). -/
def determine_roots (cands : List RootCand) (fallback : Option Entry) : List Entry :=
  let roots := rootsLoop cands []
  if roots = [] then
    match fallback with
    | some p => [p]
    | none => []
  else roots

theorem rootsLoop_nodup :
    ∀ (cands : List RootCand) (seen : List String),
      ((rootsLoop cands seen).map pathKey).Nodup ∧
        ∀ x ∈ (rootsLoop cands seen).map pathKey, x ∉ seen := by
  intro cands
  induction cands with
  | nil => intro seen; exact ⟨List.nodup_nil, by simp [rootsLoop]⟩
  | cons c rest ih =>
    intro seen
    unfold rootsLoop
    cases c.resolved with
    | none => exact ih seen
    | some p =>
      cases c.existsr with
      | none => exact ih seen
      | some b =>
        cases b with
        | false => exact ih seen
        | true =>
          by_cases hseen : pathKey p ∈ seen
          · simp only [if_pos hseen]
            exact ih seen
          · simp only [if_neg hseen, List.map_cons]
            obtain ⟨ih1, ih2⟩ := ih (pathKey p :: seen)
            constructor
            · rw [List.nodup_cons]
              exact ⟨fun hmem => ih2 _ hmem (List.mem_cons_self _ _), ih1⟩
            · intro x hx hxs
              rcases List.mem_cons.mp hx with rfl | hx2
              · exact hseen hxs
              · exact ih2 x hx2 (List.mem_cons_of_mem _ hxs)

/-- Claim C3: the walk lists each canonical case-insensitive directory key
at most once (`Nodup`); every stacked directory whose key is not already
visited — in particular every discovered root under the initially empty
visited set — is listed, so duplicates are walked exactly once; and
`determine_roots` itself never returns two roots with the same
case-insensitive key.  `walkAux` being a total Lean function over an
arbitrary (possibly cyclic) listing graph is the termination guarantee. -/
theorem c3_each_directory_walked_once (fs : List (String × Option (List Entry)))
    (cfg : ScanConfig) (cands : List RootCand) (fallback : Option Entry)
    (st : List Entry) (visited : List String) :
    (walkAux fs cfg st visited).1.Nodup ∧
    (st.all fun r => decide (pathKey r ∈ visited) ||
      decide (pathKey r ∈ (walkAux fs cfg st visited).1)) = true ∧
    ((determine_roots cands fallback).map pathKey).Nodup := by
  refine ⟨(walkAux_listed_fresh fs cfg st visited).1, ?_, ?_⟩
  · rw [List.all_eq_true]
    intro r hr
    rw [Bool.or_eq_true]
    by_cases hv : pathKey r ∈ visited
    · exact Or.inl (decide_eq_true hv)
    · exact Or.inr (decide_eq_true (walkAux_covers fs cfg st visited r hr hv))
  · unfold determine_roots
    by_cases hroots : rootsLoop cands [] = []
    · simp only [if_pos hroots]
      cases fallback with
      | none => exact List.nodup_nil
      | some p => simp
    · simp only [if_neg hroots]
      exact (rootsLoop_nodup cands []).1

end YaraDiskScan
